import Mathlib

/-!
Verification of the NekoSpeak eSpeak JNI wrapper
(`app/src/main/cpp/espeak_wrapper.c`).

The wrapper bridges two managed-runtime calls to the espeak-ng engine:
`initialize(dataPath)` and `textToPhonemes(text, language)`.  The C buffer is a
byte array, so phoneme chunks are modelled as `List Char` (one `Char` per byte);
`List.length` corresponds to `strlen` and `++` to `strcat`.  The external
engine (an opaque native library, not part of this repository) is abstracted:
each call to `espeak_TextToPhonemes` yields an `EngineStep`, namely the chunk
pointer it returned (`none` models `NULL`) and whether it left the text cursor
`NULL`.  A whole engine behaviour is a stream `Nat → EngineStep`, covering
arbitrary (also infinite) chunk sequences.
-/

/-- A byte string, as stored in the C `char *` buffer. -/
abbrev Chunk := List Char

/-- Result of one `espeak_TextToPhonemes` call: the returned chunk
(`none` = `NULL` pointer) and whether `text_ptr` is `NULL` afterwards. -/
structure EngineStep where
  chunk : Option Chunk
  cursorNull : Bool
deriving DecidableEq, Repr

/-- Error-level log messages emitted through `LOGE` in the wrapper. -/
inductive LogMsg where
  | setVoiceFailed (lang : String)
  | allocFailed
  | bufferOverflow
deriving DecidableEq, Repr

/-- `#define MAX_PHONEME_BUFFER 16384` — capacity of the accumulation buffer. -/
def MAX_PHONEME_BUFFER : Nat := 16384

/-- The accumulation `while (text_ptr != NULL)` loop of
`Java_com_nekospeak_tts_engine_EspeakWrapper_textToPhonemes`.

Per iteration: call the engine (`e 0`); break on a `NULL` or empty chunk;
append a single space separator when the buffer is non-empty and
`current_len + len + 2 < MAX_PHONEME_BUFFER`; append the chunk when
`current_len + len + 1 < MAX_PHONEME_BUFFER` (with `current_len` already
updated by the separator), otherwise log `"Phoneme buffer overflow"` and
break.  The loop condition is re-checked through `cursorNull`.

`fuel` bounds the number of iterations.  Each non-breaking iteration strictly
increases `current_len`, which stays below the capacity, so any fuel of at
least `MAX_PHONEME_BUFFER - 1 - current_len` yields the exact loop result
(proved below); the wrapper calls it with fuel `MAX_PHONEME_BUFFER`. -/
def phonemeLoop : Nat → (Nat → EngineStep) → Chunk → Nat → Chunk × List LogMsg
  | 0, _, buffer, _ => (buffer, [])
  | fuel + 1, e, buffer, current_len =>
    match e 0 with
    | ⟨none, _⟩ => (buffer, [])
    | ⟨some phonemes, cursorNull⟩ =>
      if phonemes.length = 0 then (buffer, [])
      else
        let len := phonemes.length
        let buffer1 :=
          if 0 < current_len ∧ current_len + len + 2 < MAX_PHONEME_BUFFER
          then buffer ++ [' '] else buffer
        let len1 :=
          if 0 < current_len ∧ current_len + len + 2 < MAX_PHONEME_BUFFER
          then current_len + 1 else current_len
        if len1 + len + 1 < MAX_PHONEME_BUFFER then
          if cursorNull then (buffer1 ++ phonemes, [])
          else phonemeLoop fuel (fun j => e (j + 1)) (buffer1 ++ phonemes) (len1 + len)
        else (buffer1, [LogMsg.bufferOverflow])

/-- `Java_com_nekospeak_tts_engine_EspeakWrapper_textToPhonemes`.

`voiceOk` is the outcome of `espeak_SetVoiceByName(c_lang)` (`EE_OK` or not),
`mallocOk` whether `malloc(MAX_PHONEME_BUFFER)` succeeded, and `e` the engine's
conversion behaviour.  On voice failure the wrapper logs and returns `""`
without any conversion call; on allocation failure it logs and returns `""`;
otherwise it runs the accumulation loop on the empty buffer. -/
def textToPhonemes (voiceOk mallocOk : Bool) (language : String)
    (e : Nat → EngineStep) : Chunk × List LogMsg :=
  if voiceOk = false then ([], [LogMsg.setVoiceFailed language])
  else if mallocOk = false then ([], [LogMsg.allocFailed])
  else phonemeLoop MAX_PHONEME_BUFFER e [] 0

/-- Engine behaviour that yields the chunks of `cs` in order (cursor kept
non-`NULL`), then returns `NULL` chunks with a `NULL` cursor. -/
def engineOfChunks : List Chunk → Nat → EngineStep
  | [], _ => ⟨none, true⟩
  | c :: _, 0 => ⟨some c, false⟩
  | _ :: cs, j + 1 => engineOfChunks cs j

/-- Engine behaviour that yields the chunks of `cs` in order (cursor kept
non-`NULL`) and then continues as the stream `t`. -/
def engineCat : List Chunk → (Nat → EngineStep) → Nat → EngineStep
  | [], t, j => t j
  | c :: _, _, 0 => ⟨some c, false⟩
  | _ :: cs, t, j + 1 => engineCat cs t j

/-- Specification-side definition (from the spec's words): the separator-tail
`" " ++ chunk₂ ++ " " ++ chunk₃ ++ …` of a space-joined chunk sequence. -/
def sepTail : List Chunk → Chunk
  | [] => []
  | c :: cs => ' ' :: (c ++ sepTail cs)

/-- Specification-side definition (from the spec's words):
`chunk₁ ++ " " ++ chunk₂ ++ … ++ " " ++ chunk_N`, the single-space join with
no leading and no trailing separator. -/
def spaceJoin : List Chunk → Chunk
  | [] => []
  | c :: cs => c ++ sepTail cs

/-- List-recursion form of the accumulation loop, specialised to the engine
behaviour `engineOfChunks cs`; proved equal to `phonemeLoop` below and used
to reason about finite chunk sequences. -/
def accumChunks : Chunk → Nat → List Chunk → Chunk × List LogMsg
  | buffer, _, [] => (buffer, [])
  | buffer, current_len, phonemes :: rest =>
    if phonemes.length = 0 then (buffer, [])
    else
      let len := phonemes.length
      let buffer1 :=
        if 0 < current_len ∧ current_len + len + 2 < MAX_PHONEME_BUFFER
        then buffer ++ [' '] else buffer
      let len1 :=
        if 0 < current_len ∧ current_len + len + 2 < MAX_PHONEME_BUFFER
        then current_len + 1 else current_len
      if len1 + len + 1 < MAX_PHONEME_BUFFER then
        accumChunks (buffer1 ++ phonemes) (len1 + len) rest
      else (buffer1, [LogMsg.bufferOverflow])

/-- `espeak_AUDIO_OUTPUT` from `speak_lib.h`. -/
inductive AudioOutput where
  | playback
  | retrieval
  | synchronous
  | synchPlayback
deriving DecidableEq, Repr

/-- Argument tuple of one `espeak_Initialize` call. -/
structure EngineInitArgs where
  output : AudioOutput
  buflength : Nat
  path : String
  options : Nat
deriving DecidableEq, Repr

/-- `Java_com_nekospeak_tts_engine_EspeakWrapper_initialize`: calls
`espeak_Initialize(AUDIO_OUTPUT_SYNCHRONOUS, 0, path, 0)` and returns its
result.  The second component records the exact engine calls made, in order. -/
def espeakWrapper_init (engineInit : EngineInitArgs → Int) (dataPath : String) :
    Int × List EngineInitArgs :=
  (engineInit ⟨AudioOutput.synchronous, 0, dataPath, 0⟩,
   [⟨AudioOutput.synchronous, 0, dataPath, 0⟩])

/-- Model of the external espeak-ng engine as a fixed deterministic function:
`registry` says which voice names `espeak_SetVoiceByName` accepts, and
`convert` gives the conversion chunk stream for a given active voice and
input text. -/
structure EspeakEngine where
  registry : String → Bool
  convert : Option String → String → Nat → EngineStep

/-- Model of `espeak_SetVoiceByName`: on success the process-wide active voice
becomes `name`; on failure it is left unchanged.  Returns the new voice state
and the success flag. -/
def espeak_SetVoiceByName (eng : EspeakEngine) (voice : Option String)
    (name : String) : Option String × Bool :=
  if eng.registry name then (some name, true) else (voice, false)

/-- `textToPhonemes` with the engine's process-wide voice state threaded
explicitly: the wrapper first calls `espeak_SetVoiceByName`, then (on success)
runs the accumulation loop against the engine's conversion stream for the now
active voice.  Returns the updated voice state and the wrapper's result. -/
def textToPhonemesJNI (eng : EspeakEngine) (mallocOk : Bool)
    (voice : Option String) (text language : String) :
    Option String × (Chunk × List LogMsg) :=
  let r := espeak_SetVoiceByName eng voice language
  (r.1, textToPhonemes r.2 mallocOk language (eng.convert r.1 text))

/-! ### Basic lemmas about the accumulation loop -/

lemma getLast_append_right (l₁ l₂ : Chunk) (h : l₂ ≠ []) :
    (l₁ ++ l₂).getLast? = l₂.getLast? := by
  rw [List.getLast?_append]
  cases hl : l₂.getLast? with
  | none => exact absurd (List.getLast?_eq_none_iff.mp hl) h
  | some a => rfl

/-- Unfolding the loop when the engine returns a `NULL` chunk. -/
lemma phonemeLoop_step_none (fuel : Nat) (e : Nat → EngineStep) (buffer : Chunk)
    (cur : Nat) (b : Bool) (h0 : e 0 = ⟨none, b⟩) :
    phonemeLoop (fuel + 1) e buffer cur = (buffer, []) := by
  simp [phonemeLoop, h0]

/-- Unfolding the loop when the engine returns a chunk `ph`, with the
`let`-bound separator state flattened into nested conditionals. -/
lemma phonemeLoop_step_some (fuel : Nat) (e : Nat → EngineStep) (buffer : Chunk)
    (cur : Nat) (ph : Chunk) (cN : Bool) (h0 : e 0 = ⟨some ph, cN⟩) :
    phonemeLoop (fuel + 1) e buffer cur =
      (if ph.length = 0 then (buffer, [])
      else if 0 < cur ∧ cur + ph.length + 2 < MAX_PHONEME_BUFFER then
        (if cur + 1 + ph.length + 1 < MAX_PHONEME_BUFFER then
          if cN then (buffer ++ [' '] ++ ph, [])
          else phonemeLoop fuel (fun j => e (j + 1)) (buffer ++ [' '] ++ ph)
            (cur + 1 + ph.length)
        else (buffer ++ [' '], [LogMsg.bufferOverflow]))
      else
        (if cur + ph.length + 1 < MAX_PHONEME_BUFFER then
          if cN then (buffer ++ ph, [])
          else phonemeLoop fuel (fun j => e (j + 1)) (buffer ++ ph)
            (cur + ph.length)
        else (buffer, [LogMsg.bufferOverflow]))) := by
  by_cases hlen : ph.length = 0
  · simp [phonemeLoop, h0, hlen]
  · by_cases hsep : 0 < cur ∧ cur + ph.length + 2 < MAX_PHONEME_BUFFER
    · simp [phonemeLoop, h0, hlen, hsep]
    · simp [phonemeLoop, h0, hlen, hsep]

/-- Unfolding the list form on a cons, with the `let`s flattened likewise. -/
lemma accumChunks_step (buffer : Chunk) (cur : Nat) (ph : Chunk)
    (rest : List Chunk) :
    accumChunks buffer cur (ph :: rest) =
      (if ph.length = 0 then (buffer, [])
      else if 0 < cur ∧ cur + ph.length + 2 < MAX_PHONEME_BUFFER then
        (if cur + 1 + ph.length + 1 < MAX_PHONEME_BUFFER then
          accumChunks (buffer ++ [' '] ++ ph) (cur + 1 + ph.length) rest
        else (buffer ++ [' '], [LogMsg.bufferOverflow]))
      else
        (if cur + ph.length + 1 < MAX_PHONEME_BUFFER then
          accumChunks (buffer ++ ph) (cur + ph.length) rest
        else (buffer, [LogMsg.bufferOverflow]))) := by
  by_cases hlen : ph.length = 0
  · simp [accumChunks, hlen]
  · by_cases hsep : 0 < cur ∧ cur + ph.length + 2 < MAX_PHONEME_BUFFER
    · simp [accumChunks, hlen, hsep]
    · simp [accumChunks, hlen, hsep]

/-- The loop only ever appends to the buffer: the result is never shorter. -/
lemma phonemeLoop_length_mono (fuel : Nat) (e : Nat → EngineStep) (buffer : Chunk)
    (cur : Nat) : buffer.length ≤ (phonemeLoop fuel e buffer cur).1.length := by
  induction fuel generalizing e buffer cur with
  | zero => simp [phonemeLoop]
  | succ k ih =>
    cases h0 : e 0 with
    | mk chunk cN =>
      cases chunk with
      | none => simp [phonemeLoop_step_none k e buffer cur cN h0]
      | some ph =>
        rw [phonemeLoop_step_some k e buffer cur ph cN h0]
        split_ifs <;> first
          | exact le_trans (by simp) (ih _ _ _)
          | simp

/-- Capacity invariant: starting from a buffer below capacity, the loop result
stays strictly below capacity, leaving room for the `NUL` terminator. -/
lemma phonemeLoop_length_le (fuel : Nat) (e : Nat → EngineStep) (buffer : Chunk)
    (cur : Nat) (hcur : cur = buffer.length)
    (hb : buffer.length + 2 ≤ MAX_PHONEME_BUFFER) :
    (phonemeLoop fuel e buffer cur).1.length + 2 ≤ MAX_PHONEME_BUFFER := by
  induction fuel generalizing e buffer cur with
  | zero => simpa [phonemeLoop] using hb
  | succ k ih =>
    cases h0 : e 0 with
    | mk chunk cN =>
      cases chunk with
      | none => simpa [phonemeLoop_step_none k e buffer cur cN h0] using hb
      | some ph =>
        rw [phonemeLoop_step_some k e buffer cur ph cN h0]
        split_ifs <;>
          first
          | exact ih _ _ _ (by simp [hcur]; try omega) (by simp; omega)
          | (simp; omega)

/-- Unfolding the loop against the finite-chunk engine. -/
lemma phonemeLoop_chunks_step (fuel cur : Nat) (buffer c : Chunk)
    (cs : List Chunk) :
    phonemeLoop (fuel + 1) (engineOfChunks (c :: cs)) buffer cur =
      (if c.length = 0 then (buffer, [])
      else if 0 < cur ∧ cur + c.length + 2 < MAX_PHONEME_BUFFER then
        (if cur + 1 + c.length + 1 < MAX_PHONEME_BUFFER then
          phonemeLoop fuel (engineOfChunks cs) (buffer ++ [' '] ++ c)
            (cur + 1 + c.length)
        else (buffer ++ [' '], [LogMsg.bufferOverflow]))
      else
        (if cur + c.length + 1 < MAX_PHONEME_BUFFER then
          phonemeLoop fuel (engineOfChunks cs) (buffer ++ c) (cur + c.length)
        else (buffer, [LogMsg.bufferOverflow]))) := by
  have hshift : (fun j => engineOfChunks (c :: cs) (j + 1)) = engineOfChunks cs := by
    funext j; rfl
  rw [phonemeLoop_step_some fuel (engineOfChunks (c :: cs)) buffer cur c false rfl]
  simp only [hshift, Bool.false_eq_true, if_false]

/-- With enough fuel, the loop on the finite-chunk engine computes exactly
`accumChunks`: the fuel bound is maintained because every non-breaking
iteration strictly increases `current_len`. -/
lemma phonemeLoop_eq_accumChunks (cs : List Chunk) (fuel cur : Nat)
    (buffer : Chunk) (hcur : cur + 2 ≤ MAX_PHONEME_BUFFER)
    (hfuel : MAX_PHONEME_BUFFER ≤ fuel + cur + 1) :
    phonemeLoop fuel (engineOfChunks cs) buffer cur = accumChunks buffer cur cs := by
  induction cs generalizing fuel cur buffer with
  | nil =>
    cases fuel with
    | zero => simp [phonemeLoop, accumChunks]
    | succ k =>
      rw [phonemeLoop_step_none k _ buffer cur true rfl]
      simp [accumChunks]
  | cons c cs ih =>
    obtain ⟨m, rfl⟩ : ∃ m, fuel = m + 1 := ⟨fuel - 1, by omega⟩
    rw [phonemeLoop_chunks_step m cur buffer c cs, accumChunks_step]
    split_ifs with h1 h2 h3 h4
    · rfl
    · exact ih _ _ _ (by omega) (by omega)
    · rfl
    · have hpos : 0 < c.length := Nat.pos_of_ne_zero h1
      exact ih _ _ _ (by omega) (by omega)
    · rfl

/-- Running `textToPhonemes` against a finite chunk sequence is computing
`accumChunks` from the empty buffer. -/
lemma textToPhonemes_chunks (cs : List Chunk) (lang : String) :
    textToPhonemes true true lang (engineOfChunks cs) = accumChunks [] 0 cs := by
  have h2 : (2 : Nat) ≤ MAX_PHONEME_BUFFER := by norm_num [MAX_PHONEME_BUFFER]
  simp only [textToPhonemes, Bool.true_eq_false, if_false]
  exact phonemeLoop_eq_accumChunks cs MAX_PHONEME_BUFFER 0 [] (by omega) (by omega)

/-- Fuel independence: every non-breaking iteration strictly increases
`current_len`, which stays at most `MAX_PHONEME_BUFFER - 2`, so any fuel of at
least `MAX_PHONEME_BUFFER - 1 - current_len` (16383 iterations from an empty
buffer) gives the same result — the loop always terminates by exhaustion, by
overflow, or through the cursor check, never by running out of fuel. -/
lemma phonemeLoop_fuel_eq (f₁ f₂ : Nat) (e : Nat → EngineStep) (buffer : Chunk)
    (cur : Nat) (hcur : cur + 2 ≤ MAX_PHONEME_BUFFER)
    (h₁ : MAX_PHONEME_BUFFER ≤ f₁ + cur + 1)
    (h₂ : MAX_PHONEME_BUFFER ≤ f₂ + cur + 1) :
    phonemeLoop f₁ e buffer cur = phonemeLoop f₂ e buffer cur := by
  induction f₁ generalizing f₂ e buffer cur with
  | zero => omega
  | succ k ih =>
    obtain ⟨m, rfl⟩ : ∃ m, f₂ = m + 1 := ⟨f₂ - 1, by omega⟩
    cases h0 : e 0 with
    | mk chunk cN =>
      cases chunk with
      | none =>
        rw [phonemeLoop_step_none k e buffer cur cN h0,
          phonemeLoop_step_none m e buffer cur cN h0]
      | some ph =>
        rw [phonemeLoop_step_some k e buffer cur ph cN h0,
          phonemeLoop_step_some m e buffer cur ph cN h0]
        split_ifs <;>
          first
          | rfl
          | exact ih _ _ _ _ (by omega) (by omega) (by omega)

/-- A first engine chunk of length at least `16383` overflows the buffer at
once: the wrapper returns the empty string and logs the overflow even though
voice selection and conversion succeeded. -/
lemma textToPhonemes_firstChunk_overflow (e : Nat → EngineStep) (lang : String)
    (ph : Chunk) (b : Bool) (h0 : e 0 = ⟨some ph, b⟩) (hlen : 16383 ≤ ph.length) :
    textToPhonemes true true lang e = ([], [LogMsg.bufferOverflow]) := by
  have hM : MAX_PHONEME_BUFFER = 16383 + 1 := rfl
  simp only [textToPhonemes, Bool.true_eq_false, if_false]
  rw [hM, phonemeLoop_step_some 16383 e [] 0 ph b h0]
  have hne : ¬ph.length = 0 := by omega
  rw [if_neg hne, if_neg (by omega), if_neg (by omega)]

/-! ### The space-joined result when everything fits -/

/-- Continuing the accumulation from a non-empty buffer: when the whole
remaining separator-tail fits (strictly, with a byte to spare for the `NUL`),
every chunk is appended after a single-space separator. -/
lemma accumChunks_join_pos (cs : List Chunk) (buffer : Chunk) (cur : Nat)
    (hne : ∀ c ∈ cs, c ≠ []) (hcur : cur = buffer.length) (hpos : 0 < cur)
    (hfit : cur + (sepTail cs).length + 2 ≤ MAX_PHONEME_BUFFER) :
    accumChunks buffer cur cs = (buffer ++ sepTail cs, []) := by
  induction cs generalizing buffer cur with
  | nil => simp [accumChunks, sepTail]
  | cons c cs ih =>
    have hc : c ≠ [] := hne c (List.mem_cons_self c cs)
    have hclen : 0 < c.length := List.length_pos.mpr hc
    have hst : (sepTail (c :: cs)).length = 1 + c.length + (sepTail cs).length := by
      simp [sepTail]
      omega
    rw [accumChunks_step]
    rw [if_neg (by omega), if_pos (by constructor <;> omega),
      if_pos (by omega)]
    have hb' : cur + 1 + c.length = (buffer ++ [' '] ++ c).length := by
      simp only [List.length_append, List.length_cons, List.length_nil, hcur]
    rw [ih (buffer ++ [' '] ++ c) (cur + 1 + c.length)
      (fun c' h => hne c' (List.mem_cons_of_mem c h)) hb' (by omega) (by omega)]
    simp [sepTail, List.append_assoc]

/-- From the empty buffer: when the whole space-joined concatenation fits
(strictly, with a byte to spare for the `NUL`), the accumulation produces
exactly the single-space join. -/
lemma accumChunks_join (cs : List Chunk) (hne : ∀ c ∈ cs, c ≠ [])
    (hfit : (spaceJoin cs).length + 2 ≤ MAX_PHONEME_BUFFER) :
    accumChunks [] 0 cs = (spaceJoin cs, []) := by
  cases cs with
  | nil => simp [accumChunks, spaceJoin]
  | cons c cs =>
    have hc : c ≠ [] := hne c (List.mem_cons_self c cs)
    have hclen : 0 < c.length := List.length_pos.mpr hc
    have hsj : (spaceJoin (c :: cs)).length = c.length + (sepTail cs).length := by
      simp [spaceJoin]
    rw [accumChunks_step]
    rw [if_neg (by omega), if_neg (by omega), if_pos (by omega)]
    rw [show (([] : Chunk) ++ c) = c from by simp]
    rw [show (0 + c.length) = c.length from by omega]
    rw [accumChunks_join_pos cs c c.length
      (fun c' h => hne c' (List.mem_cons_of_mem c h)) rfl (by omega) (by omega)]
    simp [spaceJoin]

/-! ### The overflow case -/

/-- What the wrapper returns when the buffer overflows: the overflow was
logged, and the returned string is a strict prefix of the full space-joined
concatenation — possibly with the separator missing at the cut point, when
the chunk after the cut was appended without its separator just before the
buffer filled up. -/
def OverflowShape (full : Chunk) (r : Chunk × List LogMsg) : Prop :=
  r.2 = [LogMsg.bufferOverflow] ∧
  ((∃ t, t ≠ [] ∧ full = r.1 ++ t) ∨
   (∃ p c t, r.1 = p ++ c ∧ full = p ++ [' '] ++ c ++ t))

/-- Continuing the accumulation from a non-empty buffer: when the remaining
separator-tail no longer fits, the loop ends in the overflow branch and
returns a truncation of whole-chunk granularity. -/
lemma accumChunks_overflow_pos (cs : List Chunk) (buffer : Chunk) (cur : Nat)
    (hne : ∀ c ∈ cs, c ≠ []) (hcur : cur = buffer.length) (hpos : 0 < cur)
    (hb : cur + 2 ≤ MAX_PHONEME_BUFFER)
    (hover : MAX_PHONEME_BUFFER ≤ cur + (sepTail cs).length) :
    OverflowShape (buffer ++ sepTail cs) (accumChunks buffer cur cs) := by
  induction cs generalizing buffer cur with
  | nil =>
    simp only [sepTail, List.length_nil] at hover
    omega
  | cons c cs ih =>
    have hc : c ≠ [] := hne c (List.mem_cons_self c cs)
    have hclen : 0 < c.length := List.length_pos.mpr hc
    have hst : (sepTail (c :: cs)).length = 1 + c.length + (sepTail cs).length := by
      simp [sepTail]
      omega
    rw [accumChunks_step, if_neg (by omega)]
    by_cases hsep : 0 < cur ∧ cur + c.length + 2 < MAX_PHONEME_BUFFER
    · obtain ⟨hsep1, hsep2⟩ := hsep
      rw [if_pos ⟨hsep1, hsep2⟩, if_pos (by omega)]
      have hb' : cur + 1 + c.length = (buffer ++ [' '] ++ c).length := by
        simp only [List.length_append, List.length_cons, List.length_nil, hcur]
      have := ih (buffer ++ [' '] ++ c) (cur + 1 + c.length)
        (fun c' h => hne c' (List.mem_cons_of_mem c h)) hb' (by omega)
        (by omega) (by omega)
      have hfull : buffer ++ [' '] ++ c ++ sepTail cs = buffer ++ sepTail (c :: cs) := by
        simp [sepTail, List.append_assoc]
      rwa [hfull] at this
    · have hsep2 : ¬cur + c.length + 2 < MAX_PHONEME_BUFFER :=
        fun h => hsep ⟨hpos, h⟩
      rw [if_neg hsep]
      by_cases happ : cur + c.length + 1 < MAX_PHONEME_BUFFER
      · rw [if_pos happ]
        cases cs with
        | nil =>
          simp only [sepTail, List.append_nil, List.length_cons,
            List.length_nil] at hover hst
          omega
        | cons c2 rest =>
          have hc2 : c2 ≠ [] := hne c2 (List.mem_cons_of_mem c (List.mem_cons_self c2 rest))
          have hc2len : 0 < c2.length := List.length_pos.mpr hc2
          rw [accumChunks_step, if_neg (by omega), if_neg (by omega),
            if_neg (by omega)]
          exact ⟨rfl, Or.inr ⟨buffer, c, sepTail (c2 :: rest), rfl,
            by simp [sepTail, List.append_assoc]⟩⟩
      · rw [if_neg happ]
        exact ⟨rfl, Or.inl ⟨sepTail (c :: cs), by simp [sepTail], rfl⟩⟩

/-- From the empty buffer: when the full space-joined concatenation (plus its
`NUL`) no longer fits in the capacity, the wrapper logs an overflow and
returns a whole-chunk truncation of the join. -/
lemma accumChunks_overflow (cs : List Chunk) (hne : ∀ c ∈ cs, c ≠ [])
    (hover : MAX_PHONEME_BUFFER ≤ (spaceJoin cs).length) :
    OverflowShape (spaceJoin cs) (accumChunks [] 0 cs) := by
  have hM : MAX_PHONEME_BUFFER = 16384 := rfl
  cases cs with
  | nil =>
    simp only [spaceJoin, List.length_nil] at hover
    omega
  | cons c cs =>
    have hc : c ≠ [] := hne c (List.mem_cons_self c cs)
    have hclen : 0 < c.length := List.length_pos.mpr hc
    have hsj : (spaceJoin (c :: cs)).length = c.length + (sepTail cs).length := by
      simp [spaceJoin]
    rw [accumChunks_step, if_neg (by omega), if_neg (by simp)]
    by_cases happ : 0 + c.length + 1 < MAX_PHONEME_BUFFER
    · rw [if_pos happ]
      rw [show (([] : Chunk) ++ c) = c from by simp]
      rw [show (0 + c.length) = c.length from by omega]
      have := accumChunks_overflow_pos cs c c.length
        (fun c' h => hne c' (List.mem_cons_of_mem c h)) rfl (by omega)
        (by omega) (by omega)
      simpa [spaceJoin] using this
    · rw [if_neg happ]
      exact ⟨rfl, Or.inl ⟨spaceJoin (c :: cs), by simp [spaceJoin, hc], rfl⟩⟩

/-! ### No trailing separator -/

/-- A separator is only written under a bound that guarantees the chunk after
it is written too, so the loop result never ends with a separator byte:
whenever no engine chunk itself ends in `' '` and the starting buffer does not
end in `' '`, neither does the result, on any return path. -/
lemma phonemeLoop_getLast (fuel : Nat) (e : Nat → EngineStep) (buffer : Chunk)
    (cur : Nat)
    (hchunks : ∀ i ph b, e i = ⟨some ph, b⟩ → ph.getLast? ≠ some ' ')
    (hbuf : buffer.getLast? ≠ some ' ') :
    ((phonemeLoop fuel e buffer cur).1).getLast? ≠ some ' ' := by
  induction fuel generalizing e buffer cur with
  | zero => simpa [phonemeLoop] using hbuf
  | succ k ih =>
    cases h0 : e 0 with
    | mk chunk cN =>
      cases chunk with
      | none => simpa [phonemeLoop_step_none k e buffer cur cN h0] using hbuf
      | some ph =>
        have hph : ph.getLast? ≠ some ' ' := hchunks 0 ph cN h0
        rw [phonemeLoop_step_some k e buffer cur ph cN h0]
        split_ifs with h1 h2 h3 h4 h5 h6
        · exact hbuf
        · have hphne : ph ≠ [] := by
            intro hnil
            exact h1 (by simp [hnil])
          show (buffer ++ [' '] ++ ph).getLast? ≠ some ' '
          rw [getLast_append_right (buffer ++ [' ']) ph hphne]
          exact hph
        · have hphne : ph ≠ [] := by
            intro hnil
            exact h1 (by simp [hnil])
          refine ih _ _ _ (fun i ph' b' h => hchunks (i + 1) ph' b' h) ?_
          rw [getLast_append_right (buffer ++ [' ']) ph hphne]
          exact hph
        · obtain ⟨hs1, hs2⟩ := h2
          omega
        · have hphne : ph ≠ [] := by
            intro hnil
            exact h1 (by simp [hnil])
          show (buffer ++ ph).getLast? ≠ some ' '
          rw [getLast_append_right buffer ph hphne]
          exact hph
        · have hphne : ph ≠ [] := by
            intro hnil
            exact h1 (by simp [hnil])
          refine ih _ _ _ (fun i ph' b' h => hchunks (i + 1) ph' b' h) ?_
          rw [getLast_append_right buffer ph hphne]
          exact hph
        · exact hbuf

/-! ### Early termination on a null-or-empty chunk -/

/-- The loop stops at once when the next engine answer is a `NULL` or empty
chunk, returning the buffer unchanged. -/
lemma phonemeLoop_exhausted (fuel : Nat) (e : Nat → EngineStep) (buffer : Chunk)
    (cur : Nat) (h : (e 0).chunk = none ∨ (e 0).chunk = some []) :
    phonemeLoop fuel e buffer cur = (buffer, []) := by
  cases fuel with
  | zero => simp [phonemeLoop]
  | succ k =>
    rcases h0 : e 0 with ⟨c0, b0⟩
    rw [h0] at h
    rcases h with h | h
    · simp only at h
      subst h
      rw [phonemeLoop_step_none k e buffer cur b0 h0]
    · simp only at h
      subst h
      rw [phonemeLoop_step_some k e buffer cur [] b0 h0]
      simp

/-- Everything the engine would do after its first null-or-empty chunk is
irrelevant: two engine behaviours that agree on the chunks `cs` and then both
answer with a null-or-empty chunk produce the same loop result, whatever (and
however non-null) their cursors and later chunks are. -/
lemma phonemeLoop_engineCat_eq (cs : List Chunk) (t t' : Nat → EngineStep)
    (fuel cur : Nat) (buffer : Chunk)
    (h : (t 0).chunk = none ∨ (t 0).chunk = some [])
    (h' : (t' 0).chunk = none ∨ (t' 0).chunk = some []) :
    phonemeLoop fuel (engineCat cs t) buffer cur =
      phonemeLoop fuel (engineCat cs t') buffer cur := by
  induction cs generalizing fuel cur buffer with
  | nil =>
    rw [phonemeLoop_exhausted fuel (engineCat [] t) buffer cur h,
      phonemeLoop_exhausted fuel (engineCat [] t') buffer cur h']
  | cons c cs ih =>
    cases fuel with
    | zero => rfl
    | succ k =>
      have hshift : (fun j => engineCat (c :: cs) t (j + 1)) = engineCat cs t :=
        funext fun j => rfl
      have hshift' : (fun j => engineCat (c :: cs) t' (j + 1)) = engineCat cs t' :=
        funext fun j => rfl
      rw [phonemeLoop_step_some k (engineCat (c :: cs) t) buffer cur c false rfl,
        phonemeLoop_step_some k (engineCat (c :: cs) t') buffer cur c false rfl,
        hshift, hshift']
      split_ifs <;> first
        | rfl
        | exact ih _ _ _

/-! ### Concrete boundary evaluations -/

/-- At a joined length of exactly `16383` (which still fits the 16384-byte
buffer together with its `NUL`), the final separator check fails while the
chunk append still succeeds: the two chunks are concatenated without the
space between them. -/
lemma accumChunks_boundary_16383 :
    accumChunks [] 0 [List.replicate 16381 'a', ['b']] =
      (List.replicate 16381 'a' ++ ['b'], []) := by
  have hM : MAX_PHONEME_BUFFER = 16384 := rfl
  have hR : (List.replicate 16381 'a' : Chunk).length = 16381 := by
    rw [List.length_replicate]
  have hb : (['b'] : Chunk).length = 1 := rfl
  rw [accumChunks_step, if_neg (by omega), if_neg (by omega), if_pos (by omega)]
  rw [List.nil_append]
  rw [accumChunks_step, if_neg (by omega), if_neg (by omega), if_pos (by omega)]
  rfl

/-! ### Claims -/

/-- Claim C1 (amended): for `N > 1` non-empty chunks whose space-joined
concatenation, together with its `NUL` terminator, fits the buffer with one
byte to spare (`length + 2 ≤ 16384`), the wrapper returns exactly
`chunk₁ ++ " " ++ chunk₂ ++ … ++ " " ++ chunk_N`: single-space joins, no
leading and no trailing separator.  (At a joined length of exactly `16383`
the final separator is dropped — see the counterexample.) -/
theorem textToPhonemes_space_join (cs : List Chunk) (lang : String)
    (_hN : 1 < cs.length) (hne : ∀ c ∈ cs, c ≠ [])
    (hfit : (spaceJoin cs).length + 2 ≤ MAX_PHONEME_BUFFER) :
    textToPhonemes true true lang (engineOfChunks cs) = (spaceJoin cs, []) := by
  rw [textToPhonemes_chunks]
  exact accumChunks_join cs hne hfit

/-- Witness for C1 at a concrete two-chunk input. -/
theorem textToPhonemes_space_join_witness :
    textToPhonemes true true "en" (engineOfChunks [['a'], ['b']]) =
      (spaceJoin [['a'], ['b']], []) :=
  textToPhonemes_space_join [['a'], ['b']] "en" (by decide) (by decide) (by decide)

/-- Counterexample to C1 as stated: two non-empty chunks whose space-joined
concatenation has length `16383` — it fits the 16384-byte buffer together
with its `NUL` — yet the returned string is not the space-joined chunks: the
separator check `current_len + len + 2 < 16384` fails at the second chunk
while the append check still succeeds, so the chunks are joined with no
space. -/
theorem textToPhonemes_space_join_boundary :
    (∀ c ∈ ([List.replicate 16381 'a', ['b']] : List Chunk), c ≠ []) ∧
    1 < ([List.replicate 16381 'a', ['b']] : List Chunk).length ∧
    (spaceJoin [List.replicate 16381 'a', ['b']]).length + 1 ≤ MAX_PHONEME_BUFFER ∧
    (textToPhonemes true true "en"
        (engineOfChunks [List.replicate 16381 'a', ['b']])).1 ≠
      spaceJoin [List.replicate 16381 'a', ['b']] := by
  have hR : (List.replicate 16381 'a' : Chunk).length = 16381 := by
    rw [List.length_replicate]
  have hsj : (spaceJoin [List.replicate 16381 'a', ['b']]).length = 16383 := by
    simp only [spaceJoin, sepTail, List.append_nil, List.length_append,
      List.length_cons, List.length_nil, hR]
  have hlen2 : 1 < ([List.replicate 16381 'a', ['b']] : List Chunk).length := by
    rw [show ([List.replicate 16381 'a', ['b']] : List Chunk).length = 2 from rfl]
    omega
  have hfits : (spaceJoin [List.replicate 16381 'a', ['b']]).length + 1 ≤
      MAX_PHONEME_BUFFER := by
    rw [hsj]
    norm_num [MAX_PHONEME_BUFFER]
  refine ⟨?_, hlen2, hfits, ?_⟩
  · intro c hc
    rcases List.mem_cons.mp hc with h | h
    · subst h
      intro hnil
      have := congrArg List.length hnil
      rw [hR, List.length_nil] at this
      omega
    · rcases List.mem_singleton.mp h with rfl
      simp
  · rw [textToPhonemes_chunks, accumChunks_boundary_16383]
    intro h
    have hlen := congrArg List.length h
    rw [List.length_append, hR, hsj] at hlen
    simp at hlen

/-- Claim C2: the accumulated output never exceeds the 16384-byte capacity
(there is always room for the `NUL`, and in fact one further byte), for every
voice/allocation outcome and every engine behaviour; and whenever the true
space-joined concatenation of all chunks (plus its `NUL`) no longer fits the
capacity, the wrapper logs `"Phoneme buffer overflow"` and returns a strict
prefix of the true concatenation, possibly missing the separator at the cut
point. -/
theorem textToPhonemes_capacity_and_overflow :
    (∀ (voiceOk mallocOk : Bool) (lang : String) (e : Nat → EngineStep),
      (textToPhonemes voiceOk mallocOk lang e).1.length + 2 ≤ MAX_PHONEME_BUFFER) ∧
    (∀ (cs : List Chunk) (lang : String), (∀ c ∈ cs, c ≠ []) →
      MAX_PHONEME_BUFFER ≤ (spaceJoin cs).length →
      OverflowShape (spaceJoin cs)
        (textToPhonemes true true lang (engineOfChunks cs))) := by
  constructor
  · intro vOk mOk lang e
    cases vOk with
    | false => simp [textToPhonemes, MAX_PHONEME_BUFFER]
    | true =>
      cases mOk with
      | false => simp [textToPhonemes, MAX_PHONEME_BUFFER]
      | true =>
        have hloop : textToPhonemes true true lang e =
            phonemeLoop MAX_PHONEME_BUFFER e [] 0 := by
          simp [textToPhonemes]
        rw [hloop]
        exact phonemeLoop_length_le MAX_PHONEME_BUFFER e [] 0 rfl
          (by norm_num [MAX_PHONEME_BUFFER])
  · intro cs lang hne hover
    rw [textToPhonemes_chunks]
    exact accumChunks_overflow cs hne hover

/-- Witness for C2 at a concrete overflowing input (joined length 16384). -/
theorem textToPhonemes_capacity_and_overflow_witness :
    MAX_PHONEME_BUFFER ≤ (spaceJoin [List.replicate 16382 'a', ['b']]).length ∧
    OverflowShape (spaceJoin [List.replicate 16382 'a', ['b']])
      (textToPhonemes true true "en"
        (engineOfChunks [List.replicate 16382 'a', ['b']])) := by
  have hR : (List.replicate 16382 'a' : Chunk).length = 16382 := by
    rw [List.length_replicate]
  have hover : MAX_PHONEME_BUFFER ≤
      (spaceJoin [List.replicate 16382 'a', ['b']]).length := by
    rw [show (spaceJoin [List.replicate 16382 'a', ['b']]).length = 16384 from by
      simp only [spaceJoin, sepTail, List.append_nil, List.length_append,
        List.length_cons, List.length_nil, hR]]
    norm_num [MAX_PHONEME_BUFFER]
  have hne : ∀ c ∈ ([List.replicate 16382 'a', ['b']] : List Chunk), c ≠ [] := by
    intro c hc
    rcases List.mem_cons.mp hc with h | h
    · subst h
      intro hnil
      have := congrArg List.length hnil
      rw [hR, List.length_nil] at this
      omega
    · rcases List.mem_singleton.mp h with rfl
      simp
  exact ⟨hover, textToPhonemes_capacity_and_overflow.2 _ "en" hne hover⟩

/-- Claim C3 (amended): the wrapper returns the empty string in exactly four
situations — voice-selection failure (logged; the engine conversion is never
consulted, so the result is independent of it), allocation failure (logged),
a null-or-empty very first chunk, and additionally a first chunk of length at
least `16383`, which overflows the buffer before anything was accumulated. -/
theorem textToPhonemes_empty_iff (vOk mOk : Bool) (lang : String)
    (e : Nat → EngineStep) :
    ((textToPhonemes vOk mOk lang e).1 = [] ↔
      (vOk = false ∨ mOk = false ∨ (e 0).chunk = none ∨ (e 0).chunk = some [] ∨
        ∃ ph, (e 0).chunk = some ph ∧ 16383 ≤ ph.length)) ∧
    (vOk = false →
      textToPhonemes vOk mOk lang e = ([], [LogMsg.setVoiceFailed lang]) ∧
      ∀ e', textToPhonemes vOk mOk lang e' = textToPhonemes vOk mOk lang e) ∧
    (vOk = true → mOk = false →
      textToPhonemes vOk mOk lang e = ([], [LogMsg.allocFailed])) := by
  refine ⟨?_, ?_, ?_⟩
  · cases vOk with
    | false => simp [textToPhonemes]
    | true =>
      cases mOk with
      | false => simp [textToPhonemes]
      | true =>
        have hloop : textToPhonemes true true lang e =
            phonemeLoop MAX_PHONEME_BUFFER e [] 0 := by
          simp [textToPhonemes]
        rcases h0 : e 0 with ⟨c0, b0⟩
        cases c0 with
        | none =>
          rw [hloop, phonemeLoop_exhausted _ e [] 0 (Or.inl (by rw [h0]))]
          simp [h0]
        | some ph =>
          by_cases hph : ph = []
          · subst hph
            rw [hloop, phonemeLoop_exhausted _ e [] 0 (Or.inr (by rw [h0]))]
            simp [h0]
          · by_cases hbig : 16383 ≤ ph.length
            · rw [textToPhonemes_firstChunk_overflow e lang ph b0 h0 hbig]
              exact iff_of_true rfl
                (Or.inr (Or.inr (Or.inr (Or.inr ⟨ph, rfl, hbig⟩))))
            · have hlp : 0 < ph.length :=
                List.length_pos.mpr hph
              have hMs : MAX_PHONEME_BUFFER = 16383 + 1 := rfl
              refine iff_of_false ?_ ?_
              · rw [hloop, hMs, phonemeLoop_step_some 16383 e [] 0 ph b0 h0,
                  if_neg (by omega), if_neg (by simp), if_pos (by omega)]
                cases b0 with
                | true =>
                  simp only [if_pos rfl]
                  show ¬(([] : Chunk) ++ ph = [])
                  rw [List.nil_append]
                  exact hph
                | false =>
                  simp only [Bool.false_eq_true, if_false]
                  intro hcontra
                  have hmono := phonemeLoop_length_mono 16383
                    (fun j => e (j + 1)) ([] ++ ph) (0 + ph.length)
                  rw [hcontra] at hmono
                  simp only [List.length_append, List.length_nil] at hmono
                  omega
              · rintro (h | h | h | h | ⟨ph', hph', hbig'⟩)
                · exact absurd h (by simp)
                · exact absurd h (by simp)
                · exact Option.noConfusion h
                · exact hph (Option.some.inj h)
                · have h' : ph = ph' := Option.some.inj hph'
                  rw [h'] at hbig
                  exact hbig hbig'
  · intro hv
    subst hv
    exact ⟨by simp [textToPhonemes], fun e' => by simp [textToPhonemes]⟩
  · intro hv hm
    subst hv
    subst hm
    simp [textToPhonemes]

/-- Witness for C3: a failed voice selection yields the empty string and the
logged failure. -/
theorem textToPhonemes_empty_iff_witness :
    textToPhonemes false true "en" (engineOfChunks [['a']]) =
      ([], [LogMsg.setVoiceFailed "en"]) :=
  ((textToPhonemes_empty_iff false true "en" (engineOfChunks [['a']])).2.1 rfl).1

/-- Counterexample to C3 as stated: a fourth empty-string situation exists.
Voice selection succeeded, allocation succeeded, and the first chunk is
non-null and non-empty, yet the result is the empty string (the chunk
overflows the buffer and is dropped whole, with the overflow logged). -/
theorem textToPhonemes_empty_fourth_case :
    textToPhonemes true true "en"
        (engineOfChunks [List.replicate 16383 'a']) =
      ([], [LogMsg.bufferOverflow]) ∧
    (engineOfChunks [List.replicate 16383 'a'] 0).chunk =
      some (List.replicate 16383 'a') ∧
    (List.replicate 16383 'a' : Chunk) ≠ [] := by
  have hR : (List.replicate 16383 'a' : Chunk).length = 16383 := by
    rw [List.length_replicate]
  refine ⟨textToPhonemes_firstChunk_overflow _ "en" _ false rfl (by omega), rfl, ?_⟩
  intro h
  have := congrArg List.length h
  rw [hR, List.length_nil] at this
  omega

/-- Claim C4: the accumulation loop treats a null-or-empty chunk as
exhaustion even when the engine's cursor is not yet null: whatever the engine
would have produced after that point (arbitrary later chunks, arbitrary
cursor states) has no effect on the result. -/
theorem textToPhonemes_stops_at_empty_chunk (cs : List Chunk) (vOk mOk : Bool)
    (lang : String) (t t' : Nat → EngineStep)
    (h : (t 0).chunk = none ∨ (t 0).chunk = some [])
    (h' : (t' 0).chunk = none ∨ (t' 0).chunk = some []) :
    textToPhonemes vOk mOk lang (engineCat cs t) =
      textToPhonemes vOk mOk lang (engineCat cs t') := by
  cases vOk with
  | false => simp [textToPhonemes]
  | true =>
    cases mOk with
    | false => simp [textToPhonemes]
    | true =>
      have hl : ∀ e, textToPhonemes true true lang e =
          phonemeLoop MAX_PHONEME_BUFFER e [] 0 := fun e => by
        simp [textToPhonemes]
      rw [hl, hl]
      exact phonemeLoop_engineCat_eq cs t t' MAX_PHONEME_BUFFER 0 [] h h'

/-- Witness for C4: after the chunk `"a"`, one engine reports an empty chunk
with a live cursor and would go on yielding `"z"` chunks; the other reports an
empty chunk and nothing else.  The results agree. -/
theorem textToPhonemes_stops_at_empty_chunk_witness :
    textToPhonemes true true "en"
        (engineCat [['a']] (fun _ => ⟨some [], false⟩)) =
      textToPhonemes true true "en"
        (engineCat [['a']]
          (fun j => if j = 0 then ⟨some [], false⟩ else ⟨some ['z'], false⟩)) :=
  textToPhonemes_stops_at_empty_chunk [['a']] true true "en" _ _
    (Or.inr rfl) (Or.inr (by decide))

/-- Claim C5: `initialize` makes exactly one engine call —
`espeak_Initialize(AUDIO_OUTPUT_SYNCHRONOUS, 0, dataPath, 0)`, the path passed
through unchanged — and returns the engine's status code verbatim. -/
theorem espeakWrapper_init_spec (engineInit : EngineInitArgs → Int)
    (dataPath : String) :
    espeakWrapper_init engineInit dataPath =
      (engineInit ⟨AudioOutput.synchronous, 0, dataPath, 0⟩,
        [⟨AudioOutput.synchronous, 0, dataPath, 0⟩]) := rfl

/-- Claim C6 (amended): a single non-empty chunk of length at most `16382`
(capacity minus two: the append guard `current_len + len + 1 < 16384` is
strict) is returned exactly, with no separator on either side.  (A chunk of
length `16383` would still fit the buffer with its `NUL` but is rejected —
see the counterexample.) -/
theorem textToPhonemes_single_chunk (c : Chunk) (lang : String) (hne : c ≠ [])
    (hfit : c.length + 2 ≤ MAX_PHONEME_BUFFER) :
    textToPhonemes true true lang (engineOfChunks [c]) = (c, []) := by
  rw [textToPhonemes_chunks]
  have := accumChunks_join [c] (by simpa using hne)
    (by simpa [spaceJoin, sepTail] using hfit)
  simpa [spaceJoin, sepTail] using this

/-- Witness for C6 at a concrete one-chunk input. -/
theorem textToPhonemes_single_chunk_witness :
    textToPhonemes true true "en" (engineOfChunks [['p', 'h']]) =
      (['p', 'h'], []) :=
  textToPhonemes_single_chunk ['p', 'h'] "en" (by decide) (by decide)

/-- Counterexample to C6 as stated: a single chunk of length `16383` fits the
16384-byte buffer together with its `NUL`, yet the wrapper returns the empty
string (and logs an overflow) because the append guard is strict. -/
theorem textToPhonemes_single_chunk_boundary :
    (List.replicate 16383 'x' : Chunk) ≠ [] ∧
    (List.replicate 16383 'x' : Chunk).length + 1 ≤ MAX_PHONEME_BUFFER ∧
    textToPhonemes true true "en" (engineOfChunks [List.replicate 16383 'x']) =
      ([], [LogMsg.bufferOverflow]) := by
  have hR : (List.replicate 16383 'x' : Chunk).length = 16383 := by
    rw [List.length_replicate]
  have hM : MAX_PHONEME_BUFFER = 16384 := rfl
  refine ⟨?_, by omega, ?_⟩
  · intro h
    have := congrArg List.length h
    rw [hR, List.length_nil] at this
    omega
  · exact textToPhonemes_firstChunk_overflow _ "en" _ false rfl (by omega)

/-- Claim C7: with the engine modelled as a fixed deterministic function
(voice registry and conversion), two consecutive `textToPhonemes` calls with
the same `(text, language)` and no intervening voice change yield identical
results: the wrapper re-selects the voice on every call and keeps no state of
its own. -/
theorem textToPhonemes_idempotent (eng : EspeakEngine) (mallocOk : Bool)
    (voice : Option String) (text language : String) :
    (textToPhonemesJNI eng mallocOk
        (textToPhonemesJNI eng mallocOk voice text language).1 text language).2 =
      (textToPhonemesJNI eng mallocOk voice text language).2 := by
  by_cases h : eng.registry language = true
  · simp [textToPhonemesJNI, espeak_SetVoiceByName, h]
  · simp [textToPhonemesJNI, espeak_SetVoiceByName, h]

/-- Claim C8: truncation is at whole-chunk granularity.  In general, when the
guards reject a chunk, the loop returns the buffer exactly as already
accumulated (nothing partial) together with the overflow log; in particular a
first chunk of length at least `16383` yields the empty string with an
overflow logged, although voice selection and conversion succeeded. -/
theorem textToPhonemes_whole_chunk_truncation :
    (∀ (e : Nat → EngineStep) (lang : String) (ph : Chunk) (b : Bool),
      e 0 = ⟨some ph, b⟩ → 16383 ≤ ph.length →
      textToPhonemes true true lang e = ([], [LogMsg.bufferOverflow])) ∧
    (∀ (fuel cur : Nat) (e : Nat → EngineStep) (buffer ph : Chunk) (b : Bool),
      e 0 = ⟨some ph, b⟩ → ph ≠ [] →
      ¬(0 < cur ∧ cur + ph.length + 2 < MAX_PHONEME_BUFFER) →
      ¬(cur + ph.length + 1 < MAX_PHONEME_BUFFER) →
      phonemeLoop (fuel + 1) e buffer cur = (buffer, [LogMsg.bufferOverflow])) := by
  constructor
  · exact fun e lang ph b h0 hlen =>
      textToPhonemes_firstChunk_overflow e lang ph b h0 hlen
  · intro fuel cur e buffer ph b h0 hne hsep happ
    rw [phonemeLoop_step_some fuel e buffer cur ph b h0,
      if_neg (fun hz => hne (List.length_eq_zero.mp hz)), if_neg hsep,
      if_neg happ]

/-- Witness for C8: a first chunk of length exactly `16383` is dropped whole. -/
theorem textToPhonemes_whole_chunk_truncation_witness :
    textToPhonemes true true "en" (engineOfChunks [List.replicate 16383 'q']) =
      ([], [LogMsg.bufferOverflow]) :=
  textToPhonemes_whole_chunk_truncation.1 _ "en" _ false rfl
    (by rw [List.length_replicate])

/-- Claim C9: the returned string never ends with the space separator, on any
return path including overflow: a separator is only appended under the guard
`current_len + len + 2 < 16384`, which guarantees the following chunk is
appended right after it (first conjunct); hence for every engine whose chunks
do not themselves end in a space byte, no result ends in a space (second
conjunct). -/
theorem textToPhonemes_no_trailing_separator :
    (∀ cur len : Nat, 0 < cur → cur + len + 2 < MAX_PHONEME_BUFFER →
      cur + 1 + len + 1 < MAX_PHONEME_BUFFER) ∧
    (∀ (vOk mOk : Bool) (lang : String) (e : Nat → EngineStep),
      (∀ i ph b, e i = ⟨some ph, b⟩ → ph.getLast? ≠ some ' ') →
      ((textToPhonemes vOk mOk lang e).1).getLast? ≠ some ' ') := by
  constructor
  · intro cur len h1 h2
    omega
  · intro vOk mOk lang e hch
    cases vOk with
    | false => simp [textToPhonemes]
    | true =>
      cases mOk with
      | false => simp [textToPhonemes]
      | true =>
        have hloop : textToPhonemes true true lang e =
            phonemeLoop MAX_PHONEME_BUFFER e [] 0 := by
          simp [textToPhonemes]
        rw [hloop]
        exact phonemeLoop_getLast MAX_PHONEME_BUFFER e [] 0 hch (by simp)

/-- Witness for C9 at a concrete engine behaviour. -/
theorem textToPhonemes_no_trailing_separator_witness :
    ((textToPhonemes true true "en" (fun _ => ⟨some ['a'], true⟩)).1).getLast? ≠
      some ' ' :=
  textToPhonemes_no_trailing_separator.2 true true "en" _
    (fun i ph b h => by
      cases h
      decide)

/-- Claim C10: the accumulation loop terminates for every engine behaviour:
each non-breaking iteration strictly increases `current_len`, which stays
at most `16382`, so from `current_len = cur` any fuel of at least
`MAX_PHONEME_BUFFER - 1 - cur` iterations (16383 from an empty buffer) yields
the loop's final answer — the result is the same for all such fuels. -/
theorem phonemeLoop_terminates (e : Nat → EngineStep) (f₁ f₂ cur : Nat)
    (buffer : Chunk) (hcur : cur + 2 ≤ MAX_PHONEME_BUFFER)
    (h₁ : MAX_PHONEME_BUFFER ≤ f₁ + cur + 1)
    (h₂ : MAX_PHONEME_BUFFER ≤ f₂ + cur + 1) :
    phonemeLoop f₁ e buffer cur = phonemeLoop f₂ e buffer cur :=
  phonemeLoop_fuel_eq f₁ f₂ e buffer cur hcur h₁ h₂

/-- Witness for C10: 16383 iterations already suffice from the empty buffer. -/
theorem phonemeLoop_terminates_witness :
    phonemeLoop 16383 (engineOfChunks [['a']]) [] 0 =
      phonemeLoop 99999 (engineOfChunks [['a']]) [] 0 :=
  phonemeLoop_terminates (engineOfChunks [['a']]) 16383 99999 0 []
    (by decide) (by decide) (by decide)
